import Mathlib

/-!
Shallow embedding of the tree core of the `dsl_graph` repository
(`src/include/binary_tree.h`, `binary_search_tree.h`, `avl_tree.h`),
with keys instantiated at `Int` (the code is generic over a `Comparable`
key type and uses only `==`, `<`, `>`).

Modelling conventions:
* a `bitree_node*` that may be null is a `Tree` (`Tree.nil` = null pointer);
* the tree object (`m_root` pointer plus `int m_size`) is the structure `BST`;
* functions that can dereference a null pointer or pop/top an empty
  `std::stack` (undefined behaviour) return `Option`, with `none` for the
  undefined-behaviour outcome;
* a C++ `throw` is kept distinct from a returned value via `CppResult`;
* several places in the headers do not compile as written
  (`std::nulopt`, a missing `?` in `pop`, `root->m_value(iop.m_value)`,
  `node->m_left` for `root->m_left`, undeclared `ld`/`rd`,
  `auto s = { std::stack{} }`); these are transcribed at their evident
  local intent, noted at each definition.  Semantic behaviour of the code
  (pointer parameters passed by value, missing size updates, inverted
  emptiness tests, assignments to local copies of `m_root`) is preserved
  exactly as written.
* `delete` frees a node but is not observable in the pointer structure;
  the embedded tree is what remains reachable from `m_root`.
-/

namespace DslGraph

/-- A `bitree_node*`: null, or a node with key `m_value` and two child
pointers (`struct bitree_node` in `binary_tree.h`). -/
inductive Tree where
  | nil : Tree
  | node : Tree → Int → Tree → Tree
deriving DecidableEq

/-- `root->m_left`, with the null pointer mapped to null (used only where
the code reads the field of a possibly-null child slot). -/
def Tree.left : Tree → Tree
  | .nil => .nil
  | .node l _ _ => l

/-- `root->m_right`, with the null pointer mapped to null. -/
def Tree.right : Tree → Tree
  | .nil => .nil
  | .node _ _ r => r

/-- The tree object: `m_root` owning pointer and `int m_size`
(`binary_tree` data members). -/
structure BST where
  m_root : Tree
  m_size : Int
deriving DecidableEq

/-- `binary_tree::depth`: 0 for null, otherwise
`max(depth(left) + 1, depth(right) + 1)`. -/
def depth : Tree → Nat
  | .nil => 0
  | .node l _ r => max (depth l + 1) (depth r + 1)

/-- In-order key sequence of a subtree (the order `in_order` and
`vectorize` emit nodes in). -/
def inorder : Tree → List Int
  | .nil => []
  | .node l v r => inorder l ++ v :: inorder r

/-- Number of nodes reachable from a root pointer. -/
def countNodes : Tree → Nat
  | .nil => 0
  | .node l _ r => countNodes l + 1 + countNodes r

/-- `binary_search_tree::find`: comparison descent; returns the located
node (as the subtree rooted there) or absence. -/
def findNode : Tree → Int → Option Tree
  | .nil, _ => none
  | .node l v r, x =>
    if v = x then some (.node l v r)
    else if x < v then findNode l x
    else findNode r x

/-- `binary_search_tree::maxKey` from a non-null node with value `v` and
right child `r`: follow `m_right` to the end and return that node's value. -/
def maxKeyGo (v : Int) : Tree → Int
  | .nil => v
  | .node _ rv rr => maxKeyGo rv rr

/-- `binary_search_tree::minKey` from a non-null node with value `v` and
left child `l`: follow `m_left` to the end and return that node's value. -/
def minKeyGo (v : Int) : Tree → Int
  | .nil => v
  | .node ll lv _ => minKeyGo lv ll

/-- Outcome of a C++ member call that either returns a value or throws:
`thrown msg` models `throw std::out_of_range(msg)`. -/
inductive CppResult (α : Type) where
  | ok : α → CppResult α
  | thrown : String → CppResult α
deriving DecidableEq

/-- `binary_tree::max()` on a `binary_search_tree` object: throws
`std::out_of_range` on the empty tree, otherwise returns
`maxKey(*m_root).m_value` (virtual `maxKey` resolves to the
`binary_search_tree` override, the rightmost descent). -/
def bst_max (t : BST) : CppResult Int :=
  match t.m_root with
  | .nil => .thrown "Cannot find maximum value in empty tree."
  | .node _ v r => .ok (maxKeyGo v r)

/-- `binary_tree::min()` on a `binary_search_tree` object: throws on the
empty tree — with the source's copy-pasted "maximum" message
(`binary_tree.h` line 348) — otherwise returns `minKey(*m_root).m_value`. -/
def bst_min (t : BST) : CppResult Int :=
  match t.m_root with
  | .nil => .thrown "Cannot find maximum value in empty tree."
  | .node l v _ => .ok (minKeyGo v l)

/-- `binary_search_tree::pathTo(value)` up to the stack: the nodes pushed
while descending, root first, stopping (without pushing) at the node whose
value matches; `none` when the descent falls off the tree.  (The source's
`auto s = { std::stack{} }` is read as declaring the stack.) -/
def pathNodes : Tree → Int → Option (List Tree)
  | .nil, _ => none
  | .node l v r, x =>
    if v = x then some []
    else if x < v then (pathNodes l x).map (Tree.node l v r :: ·)
    else (pathNodes r x).map (Tree.node l v r :: ·)

/-- `binary_search_tree::pathTo` as the stack it returns, listed top
(deepest ancestor) first — the order `update_balance` pops it in. -/
def pathToList (t : Tree) (x : Int) : Option (List Tree) :=
  (pathNodes t x).map List.reverse

/-- The descent loop of `binary_search_tree::push`: `none` when an equal
key is met (push returns false), otherwise the tree with the new leaf
attached at the null slot the two-pointer loop exits at. -/
def insertGo : Tree → Int → Option Tree
  | .nil, x => some (.node .nil x .nil)
  | .node l v r, x =>
    if v = x then none
    else if x < v then (insertGo l x).map (fun l2 => .node l2 v r)
    else (insertGo r x).map (fun r2 => .node l v r2)

/-- `binary_search_tree::push`: returns false on a duplicate key (tree and
size untouched), otherwise attaches the new leaf and does `m_size++`. -/
def bst_push (t : BST) (x : Int) : Bool × BST :=
  match insertGo t.m_root x with
  | none => (false, t)
  | some r => (true, ⟨r, t.m_size + 1⟩)

/-- `binary_search_tree::remove(bitree_node*, const Tp&)`.  The node
pointer is passed BY VALUE, so the leaf case (`root = nullptr`) and the
one-child case (`root = child`) reassign a local copy and leave the
caller's pointer — hence the reachable structure — unchanged; `delete`
frees storage that stays linked.  The two-children case is transcribed at
its evident intent (`root->m_value = iop.m_value;
return remove(root->m_left, iop.m_value);` for the ill-formed
`root->m_value(iop.m_value)` and `node->m_left`): the in-order
predecessor's value overwrites the node in place, then removal recurses
into the left subtree.  Returns the flag and the reachable tree. -/
def removeGo : Tree → Int → Bool × Tree
  | .nil, _ => (false, .nil)
  | .node l v r, x =>
    if x < v then
      let p := removeGo l x
      (p.1, .node p.2 v r)
    else if v < x then
      let p := removeGo r x
      (p.1, .node l v p.2)
    else
      match l, r with
      | .nil, .nil =>
        (true, .node .nil v .nil)
      | .node ll lv lr, .node rl rv rr =>
        let iop := maxKeyGo lv lr
        let p := removeGo (.node ll lv lr) iop
        (p.1, .node p.2 iop (.node rl rv rr))
      | _, _ =>
        (true, .node l v r)

/-- `binary_search_tree::pop`: `(!find(value)) ? false :
remove(this->m_root, value)` (the source omits the `?`).  No size update
happens anywhere on this path. -/
def bst_pop (t : BST) (x : Int) : Bool × BST :=
  match findNode t.m_root x with
  | none => (false, t)
  | some _ =>
    let p := removeGo t.m_root x
    (p.1, ⟨p.2, t.m_size⟩)

/-- `bitree_same`: structural node-for-node comparison with `==` on the
keys. -/
def bitree_same : Tree → Tree → Bool
  | .nil, .nil => true
  | .node ll lv lr, .node rl rv rr =>
    lv == rv && bitree_same ll rl && bitree_same lr rr
  | _, _ => false

/-- `operator==` on trees: equal `size()` and `bitree_same` roots. -/
def treeEq (lhs rhs : BST) : Bool :=
  lhs.m_size == rhs.m_size && bitree_same lhs.m_root rhs.m_root

/-- `operator!=`: negation of `operator==`. -/
def treeNe (lhs rhs : BST) : Bool :=
  !treeEq lhs rhs

/-- `avl_tree::balanceOf`: 0 for null, else
`depth(root->m_left) - depth(root->m_right)`. -/
def balanceOf : Tree → Int
  | .nil => 0
  | .node l _ r => (depth l : Int) - (depth r : Int)

/-- `avl_tree::rotate_left` with `parent == nullptr` (root scope):
`root->m_right = temp->m_left; temp->m_left = root; root = temp;` where
`root` is a LOCAL copy of `m_root` — so `m_root` keeps pointing at the old
root, whose right pointer now holds `temp`'s old left subtree; `temp` and
its right subtree drop out of the reachable tree.  `none` models the null
dereference when the root or its right child is null. -/
def rotate_left_root : Tree → Option Tree
  | .node l v (.node rl _ _) => some (.node l v rl)
  | _ => none

/-- `avl_tree::rotate_right` with `parent == nullptr`: mirror image of
`rotate_left_root`, with the same local-copy slip on `m_root`. -/
def rotate_right_root : Tree → Option Tree
  | .node (.node _ _ lr) v r => some (.node lr v r)
  | _ => none

/-- `avl_tree::rotate_left` with a non-null `parent` (given as the subtree
rooted at the parent): rotates the `isLeft` child slot of the parent and
rewires the slot to the new subtree root.  `none` models the null
dereferences on `unb` or `unb->m_right`. -/
def rotate_left_at (parent : Tree) (isLeft : Bool) : Option Tree :=
  match parent with
  | .nil => none
  | .node pl pv pr =>
    match (if isLeft then pl else pr) with
    | .node ul uv (.node url ury urr) =>
      let temp := Tree.node (.node ul uv url) ury urr
      some (if isLeft then .node temp pv pr else .node pl pv temp)
    | _ => none

/-- `avl_tree::rotate_right` with a non-null `parent`: mirror image of
`rotate_left_at`. -/
def rotate_right_at (parent : Tree) (isLeft : Bool) : Option Tree :=
  match parent with
  | .nil => none
  | .node pl pv pr =>
    match (if isLeft then pl else pr) with
    | .node (.node ull ulv ulr) uv ur =>
      let temp := Tree.node ull ulv (.node ulr uv ur)
      some (if isLeft then .node temp pv pr else .node pl pv temp)
    | _ => none

/-- `avl_tree::rotate_left_right` with `parent == nullptr`:
`rotate_left(this->m_root, true); rotate_right(nullptr, false);` — a
correct child-scope left rotation of `m_root->m_left`, then the root-scope
right rotation with its local-copy slip. -/
def rotate_left_right_root (t : Tree) : Option Tree :=
  (rotate_left_at t true).bind rotate_right_root

/-- `avl_tree::rotate_right_left` with `parent == nullptr`:
`rotate_right(this->m_root, false); rotate_left(nullptr, false);`. -/
def rotate_right_left_root (t : Tree) : Option Tree :=
  (rotate_right_at t false).bind rotate_left_root

/-- The four rotation patterns `update_balance` dispatches between. -/
inductive RotKind where
  | right | leftRight | left | rightLeft
deriving DecidableEq

/-- The per-node dispatch of `avl_tree::update_balance` (lines 174-186):
nothing below threshold; when `abs(balanceOf(curr)) > 1`, the side is
picked by `ld > rd` (the undeclared `ld`/`rd` read as the child depths,
the only reading consistent with `balanceOf`), then
`balanceOf(curr->m_left) > 0` selects right vs left-right, and
`balanceOf(curr->m_right) > 0` selects right-left vs left. -/
def rebalance_pick (curr : Tree) : Option RotKind :=
  if (balanceOf curr).natAbs > 1 then
    if depth curr.left > depth curr.right then
      some (if balanceOf curr.left > 0 then .right else .leftRight)
    else
      some (if balanceOf curr.right > 0 then .rightLeft else .left)
  else
    none

/-- Application of a dispatched rotation.  In every iteration that reaches
the dispatch the stack was non-empty after the pop, so the inverted
emptiness test left `parent == nullptr`: all rotations run at root scope
on the current `m_root`. -/
def applyRot : RotKind → Tree → Option Tree
  | .right, t => rotate_right_root t
  | .leftRight, t => rotate_left_right_root t
  | .rightLeft, t => rotate_right_left_root t
  | .left, t => rotate_left_root t

/-- `avl_tree::update_balance`: pops the captured ancestor stack (held
here as the list of subtree values the stacked pointers referred to when
captured, deepest first) against the current `m_root`.  After popping
`curr` the source tests `if (s.empty()) { parent = s.top(); ... }` — the
condition is inverted, so the iteration that empties the stack calls
`top()` on the empty stack (undefined behaviour, `none`), and every other
iteration leaves `parent == nullptr` and rotates at root scope. -/
def update_balance : List Tree → Tree → Option Tree
  | [], t => some t
  | curr :: s, t =>
    if s.isEmpty then
      none
    else
      match rebalance_pick curr with
      | none => update_balance s t
      | some k =>
        match applyRot k t with
        | none => none
        | some t2 => update_balance s t2

/-- `avl_tree::push`: delegate to `binary_search_tree::push`; on success
capture `pathTo(value)` on the post-insert tree and run `update_balance`
on it.  (`update_balance(s)` is passed the optional's payload; the path
exists because the key was just inserted.) -/
def avl_push (t : BST) (x : Int) : Option (Bool × BST) :=
  match bst_push t x with
  | (false, t2) => some (false, t2)
  | (true, t2) =>
    match update_balance ((pathToList t2.m_root x).getD []) t2.m_root with
    | none => none
    | some r => some (true, ⟨r, t2.m_size⟩)

/-- `avl_tree::pop`: capture `pathTo(value)` BEFORE the deletion, delegate
to `binary_search_tree::pop`, and on success run `update_balance` on the
captured stack — the path to the requested key, not to the physical
removal point. -/
def avl_pop (t : BST) (x : Int) : Option (Bool × BST) :=
  let s := pathToList t.m_root x
  match bst_pop t x with
  | (false, t2) => some (false, t2)
  | (true, t2) =>
    match update_balance (s.getD []) t2.m_root with
    | none => none
    | some r => some (true, ⟨r, t2.m_size⟩)

/-- Boolean BST order invariant: every key in the left subtree is less
than the node's key, every key in the right subtree greater, recursively
(spec section 3, "BST order invariant"). -/
def orderedB : Tree → Bool
  | .nil => true
  | .node l v r =>
    orderedB l && orderedB r &&
    (inorder l).all (fun y => decide (y < v)) &&
    (inorder r).all (fun y => decide (v < y))

/-- The BST order invariant as a proposition. -/
def Ordered (t : Tree) : Prop := orderedB t = true

instance (t : Tree) : Decidable (Ordered t) := by
  unfold Ordered
  infer_instance

/-- The physical removal point of `remove(key)` as the spec describes it:
the located node itself when it has at most one child, and the in-order
predecessor's old slot (`max(n.left)`) in the two-children case.  This
definition follows the spec's words (section 4.2 `remove` and section 9's
open question), for comparison against what the code actually walks. -/
def physical_removal_key (t : Tree) (x : Int) : Option Int :=
  match findNode t x with
  | none => none
  | some (.node (.node _ lv lr) _ (.node _ _ _)) => some (maxKeyGo lv lr)
  | some _ => some x

/-- The rebalance walk the spec prescribes for `remove`: the strict
ancestors of the physical removal point, deepest (the walk's starting
point) first.  Spec-side definition for comparison with the stack the
code passes to `update_balance`. -/
def spec_pop_walk (t : Tree) (x : Int) : Option (List Tree) :=
  (physical_removal_key t x).bind (pathToList t)

/-- Unfolding of the order invariant at a node. -/
theorem ordered_node_iff {l r : Tree} {v : Int} :
    Ordered (.node l v r) ↔
      Ordered l ∧ Ordered r ∧
      (∀ y ∈ inorder l, y < v) ∧ (∀ y ∈ inorder r, v < y) := by
  simp [Ordered, orderedB, List.all_eq_true, and_assoc]

/-- Tree with keys 1, 2, 3 as `binary_search_tree::push` builds it from
the insertion order 2, 1, 3. -/
def t123 : Tree := .node (.node .nil 1 .nil) 2 (.node .nil 3 .nil)

/-- A node with balance factor 2 whose left child has balance factor 0
(arises during deletions): keys 1, 2, 3 on the left of 4. -/
def leftZeroEx : Tree :=
  .node (.node (.node .nil 1 .nil) 2 (.node .nil 3 .nil)) 4 .nil

/-- The balanced five-key tree 5(3(2,4),8). -/
def fiveKeyEx : Tree :=
  .node (.node (.node .nil 2 .nil) 3 (.node .nil 4 .nil)) 5 (.node .nil 8 .nil)

/-- C1: the claim says that after any sequence of `push`/`pop` from the
empty AVL tree every node has |balance factor| ≤ 1 and the in-order key
sequence is strictly increasing.  The code cannot maintain this: already
the two-push sequence 1, 2 makes the rebalance walk pop the last ancestor
and then read `s.top()` of the now-empty stack (the emptiness test in
`update_balance` is inverted), which is undefined behaviour — the walk
never completes at all on a non-empty ancestor stack. -/
theorem c1_rebalance_walk_crashes :
    avl_push ⟨.nil, 0⟩ 1 = some (true, ⟨.node .nil 1 .nil, 1⟩) ∧
    avl_push ⟨.node .nil 1 .nil, 1⟩ 2 = none := by decide

/-- C1 supporting fact: `update_balance` hits the empty-stack `top()` (or
aborts inside a rotation) on EVERY non-empty ancestor stack, whatever the
tree is — the walk can only ever finish when there is nothing to walk. -/
theorem update_balance_never_completes (c : Tree) (s : List Tree) (t : Tree) :
    update_balance (c :: s) t = none := by
  induction s generalizing c t with
  | nil => rfl
  | cons c2 s2 ih =>
    show update_balance (c :: c2 :: s2) t = none
    unfold update_balance
    rw [show (c2 :: s2).isEmpty = false from rfl, if_neg (by simp)]
    cases hk : rebalance_pick c with
    | none => exact ih c2 t
    | some k =>
      show (match applyRot k t with
            | none => none
            | some t2 => update_balance (c2 :: s2) t2) = none
      cases ha : applyRot k t with
      | none => rfl
      | some t2 => exact ih c2 t2

/-- C3: at root scope (`parent == nullptr`) both rotations assign the new
subtree root to a LOCAL copy of `m_root` (`root = temp;`), so after a
left rotation of the root 1 with right child 2 the tree's root reference
still holds 1 and node 2 is gone from the reachable tree — instead of the
claimed new root 2 with 1 as its left child; mirror for the right
rotation. -/
theorem c3_root_rotation_loses_new_root :
    rotate_left_root (.node .nil 1 (.node .nil 2 .nil)) =
      some (.node .nil 1 .nil) ∧
    Tree.node .nil 1 .nil ≠ .node (.node .nil 1 .nil) 2 .nil ∧
    rotate_right_root (.node (.node .nil 1 .nil) 2 .nil) =
      some (.node .nil 2 .nil) ∧
    Tree.node .nil 2 .nil ≠ .node .nil 1 (.node .nil 2 .nil) := by decide

/-- C6: insert 5 into the empty search tree, then remove it.  `pop`
reports success but `m_size` stays 1 (no decrement exists anywhere on the
removal path) and the node is not even detached, against the claimed
decrement-by-one and size = reachable-node-count. -/
theorem c6_pop_does_not_decrement_size :
    bst_push ⟨.nil, 0⟩ 5 = (true, ⟨.node .nil 5 .nil, 1⟩) ∧
    bst_pop ⟨.node .nil 5 .nil, 1⟩ 5 = (true, ⟨.node .nil 5 .nil, 1⟩) := by decide

/-- C7: removing the two-children root 2 of the tree built by pushing
2, 1, 3 copies the in-order predecessor key 1 into the root, but the
recursive removal's final leaf step only frees storage through a by-value
pointer copy — the predecessor node is never detached, so the in-order
key sequence becomes [1, 1, 3] (size still 3) instead of the claimed
[1, 3]. -/
theorem c7_predecessor_not_detached :
    (bst_push (bst_push (bst_push ⟨.nil, 0⟩ 2).2 1).2 3).2 = ⟨t123, 3⟩ ∧
    (bst_pop ⟨t123, 3⟩ 2).1 = true ∧
    inorder (bst_pop ⟨t123, 3⟩ 2).2.m_root = [1, 1, 3] ∧
    (bst_pop ⟨t123, 3⟩ 2).2.m_size = 3 := by decide

/-- C2 counterexample: a visited node with balance factor 2 whose left
child has balance factor 0 satisfies the claim's condition
`balanceFactor(n.left) ≥ 0`, but the walk's dispatch tests `> 0` and
picks the left-right rotation, not the claimed single right rotation. -/
theorem c2_left_zero_picks_leftRight :
    balanceOf leftZeroEx > 1 ∧
    balanceOf leftZeroEx.left ≥ 0 ∧
    rebalance_pick leftZeroEx = some RotKind.leftRight ∧
    RotKind.leftRight ≠ RotKind.right := by decide

/-- C4 counterexample: popping the two-children root 5 of 5(3(2,4),8)
succeeds, and the stack captured for the rebalance walk is
`pathTo(5) = []` — the walk examines nothing — although the spec's
physical removal point (the in-order predecessor 4's old slot) has the
strict ancestors 3 and 5, which the claim says the walk must start from
and re-examine. -/
theorem c4_walk_ignores_physical_point :
    avl_pop ⟨fiveKeyEx, 5⟩ 5 =
      some (true, ⟨.node (.node (.node .nil 2 .nil) 3 (.node .nil 4 .nil)) 4
                     (.node .nil 8 .nil), 5⟩) ∧
    pathToList fiveKeyEx 5 = some [] ∧
    spec_pop_walk fiveKeyEx 5 =
      some [.node (.node .nil 2 .nil) 3 (.node .nil 4 .nil), fiveKeyEx] ∧
    some ([] : List Tree) ≠ spec_pop_walk fiveKeyEx 5 := by decide

/-- C9 counterexample: on the empty tree, `max()` and `min()` do not
return a recoverable `EmptyTree` result value — they throw
`std::out_of_range` (the code's own comment says "throws if root is
nullptr"), and `min()` even throws with the copy-pasted "maximum"
message. -/
theorem c9_minmax_throw_on_empty :
    bst_max ⟨.nil, 0⟩ = .thrown "Cannot find maximum value in empty tree." ∧
    bst_min ⟨.nil, 0⟩ = .thrown "Cannot find maximum value in empty tree." :=
  ⟨rfl, rfl⟩

/-- `bitree_same` decides value equality of the two root pointers:
node-for-node identical shape with equal keys in corresponding positions
is exactly equality of the embedded trees. -/
theorem bitree_same_iff (s t : Tree) : bitree_same s t = true ↔ s = t := by
  induction s generalizing t with
  | nil => cases t <;> simp [bitree_same]
  | node l v r ihl ihr =>
    cases t with
    | nil => simp [bitree_same]
    | node l2 v2 r2 =>
      simp only [bitree_same, Bool.and_eq_true, beq_iff_eq, ihl, ihr,
        Tree.node.injEq]
      tauto

/-- C10: `operator==` returns true exactly when the stored sizes agree
and the root trees are node-for-node identical with equal keys (equality
of the embedded `Tree` values); `operator!=` is its negation; equality is
reflexive and symmetric. -/
theorem c10_operator_eq_characterization (a b : BST) :
    (treeEq a b = true ↔ a.m_size = b.m_size ∧ a.m_root = b.m_root) ∧
    treeNe a b = !treeEq a b ∧
    treeEq a a = true ∧
    treeEq a b = treeEq b a := by
  have key : ∀ x y : BST,
      treeEq x y = true ↔ x.m_size = y.m_size ∧ x.m_root = y.m_root := by
    intro x y
    simp [treeEq, Bool.and_eq_true, beq_iff_eq, bitree_same_iff]
  refine ⟨key a b, rfl, (key a a).2 ⟨rfl, rfl⟩, ?_⟩
  cases hab : treeEq a b <;> cases hba : treeEq b a <;> try rfl
  · have h := (key b a).1 hba
    have h2 : treeEq a b = true := (key a b).2 ⟨h.1.symm, h.2.symm⟩
    rw [hab] at h2
    exact h2
  · have h := (key a b).1 hab
    have h2 : treeEq b a = true := (key b a).2 ⟨h.1.symm, h.2.symm⟩
    rw [hba] at h2
    exact h2.symm

/-- C2 (amended): the dispatch of the rebalance walk, as the code writes
it: for a left-heavy node (`balanceFactor(n) > 1`) a single right
rotation is picked only when `balanceFactor(n.left) > 0` (strict, not the
claimed `≥ 0`) and a left-right rotation otherwise; for a right-heavy
node (`balanceFactor(n) < -1`) a right-left rotation when
`balanceFactor(n.right) > 0` and a single left rotation otherwise. -/
theorem c2_rebalance_dispatch_rule (t : Tree) :
    (balanceOf t > 1 →
      rebalance_pick t =
        some (if balanceOf t.left > 0 then RotKind.right else RotKind.leftRight)) ∧
    (balanceOf t < -1 →
      rebalance_pick t =
        some (if balanceOf t.right > 0 then RotKind.rightLeft else RotKind.left)) := by
  constructor <;> intro h
  · cases t with
    | nil => simp [balanceOf] at h
    | node l v r =>
      have hb : balanceOf (Tree.node l v r) = (depth l : Int) - depth r := rfl
      have h1 : (balanceOf (Tree.node l v r)).natAbs > 1 := by
        rw [hb]; rw [hb] at h; omega
      have h2 : depth (Tree.node l v r).left > depth (Tree.node l v r).right := by
        show depth l > depth r
        rw [hb] at h; omega
      simp [rebalance_pick, h1, h2]
  · cases t with
    | nil => simp [balanceOf] at h
    | node l v r =>
      have hb : balanceOf (Tree.node l v r) = (depth l : Int) - depth r := rfl
      have h1 : (balanceOf (Tree.node l v r)).natAbs > 1 := by
        rw [hb]; rw [hb] at h; omega
      have h2 : ¬ depth (Tree.node l v r).left > depth (Tree.node l v r).right := by
        show ¬ depth l > depth r
        rw [hb] at h; omega
      simp [rebalance_pick, h1, h2]

/-- Witness for C2 (amended): the dispatch rule applied to the concrete
left-heavy node whose left child has balance factor 0. -/
theorem c2_rebalance_dispatch_rule_witness :
    rebalance_pick leftZeroEx =
      some (if balanceOf leftZeroEx.left > 0 then RotKind.right
            else RotKind.leftRight) :=
  (c2_rebalance_dispatch_rule leftZeroEx).1 (by decide)

/-- Membership in the in-order sequence of a node. -/
theorem mem_inorder_node {y v : Int} {l r : Tree} :
    y ∈ inorder (.node l v r) ↔ y ∈ inorder l ∨ y = v ∨ y ∈ inorder r := by
  simp [inorder]

/-- On an ordered node, the rightmost descent of `maxKey` reaches a key
of the subtree that bounds every key of the subtree from above. -/
theorem maxKeyGo_spec (r : Tree) : ∀ (v : Int) (l : Tree),
    Ordered (.node l v r) →
      maxKeyGo v r ∈ inorder (.node l v r) ∧
      ∀ y ∈ inorder (.node l v r), y ≤ maxKeyGo v r := by
  induction r with
  | nil =>
    intro v l h
    rcases ordered_node_iff.1 h with ⟨-, -, hkl, -⟩
    constructor
    · exact mem_inorder_node.2 (Or.inr (Or.inl rfl))
    · intro y hy
      rcases mem_inorder_node.1 hy with hy | hy | hy
      · exact le_of_lt (hkl y hy)
      · exact le_of_eq hy
      · exact absurd hy (List.not_mem_nil y)
  | node rl rv rr ihrl ihrr =>
    intro v l h
    rcases ordered_node_iff.1 h with ⟨-, hr, hkl, hkr⟩
    have ih := ihrr rv rl hr
    have hmax : maxKeyGo v (.node rl rv rr) = maxKeyGo rv rr := rfl
    have hmem : maxKeyGo rv rr ∈ inorder (.node rl rv rr) := ih.1
    have hvlt : v < maxKeyGo rv rr := hkr _ hmem
    constructor
    · rw [hmax]
      exact mem_inorder_node.2 (Or.inr (Or.inr hmem))
    · intro y hy
      rw [hmax]
      rcases mem_inorder_node.1 hy with hy | hy | hy
      · exact le_of_lt (lt_trans (hkl y hy) hvlt)
      · exact le_of_lt (hy ▸ hvlt)
      · exact ih.2 y hy

/-- On an ordered node, the leftmost descent of `minKey` reaches a key of
the subtree that bounds every key of the subtree from below. -/
theorem minKeyGo_spec (l : Tree) : ∀ (v : Int) (r : Tree),
    Ordered (.node l v r) →
      minKeyGo v l ∈ inorder (.node l v r) ∧
      ∀ y ∈ inorder (.node l v r), minKeyGo v l ≤ y := by
  induction l with
  | nil =>
    intro v r h
    rcases ordered_node_iff.1 h with ⟨-, -, -, hkr⟩
    constructor
    · exact mem_inorder_node.2 (Or.inr (Or.inl rfl))
    · intro y hy
      rcases mem_inorder_node.1 hy with hy | hy | hy
      · exact absurd hy (List.not_mem_nil y)
      · exact le_of_eq hy.symm
      · exact le_of_lt (hkr y hy)
  | node ll lv lr ihll ihlr =>
    intro v r h
    rcases ordered_node_iff.1 h with ⟨hl, -, hkl, hkr⟩
    have ih := ihll lv lr hl
    have hmin : minKeyGo v (.node ll lv lr) = minKeyGo lv ll := rfl
    have hmem : minKeyGo lv ll ∈ inorder (.node ll lv lr) := ih.1
    have hltv : minKeyGo lv ll < v := hkl _ hmem
    constructor
    · rw [hmin]
      exact mem_inorder_node.2 (Or.inl hmem)
    · intro y hy
      rw [hmin]
      rcases mem_inorder_node.1 hy with hy | hy | hy
      · exact ih.2 y hy
      · exact le_of_lt (hy ▸ hltv)
      · exact le_of_lt (lt_trans hltv (hkr y hy))

/-- C9 (amended): on the empty tree `min()`/`max()` throw
`std::out_of_range` — an exception, not a returned `EmptyTree` result
value (and `min()` even uses the copy-pasted "maximum" message); on a
non-empty tree satisfying the BST order invariant they return the
minimum/maximum key. -/
theorem c9_minmax_behaviour (t : BST) (h : Ordered t.m_root) :
    (t.m_root = .nil →
      bst_max t = .thrown "Cannot find maximum value in empty tree." ∧
      bst_min t = .thrown "Cannot find maximum value in empty tree.") ∧
    (∀ l v r, t.m_root = .node l v r →
      (∃ m, bst_max t = .ok m ∧ m ∈ inorder t.m_root ∧
            ∀ y ∈ inorder t.m_root, y ≤ m) ∧
      (∃ m, bst_min t = .ok m ∧ m ∈ inorder t.m_root ∧
            ∀ y ∈ inorder t.m_root, m ≤ y)) := by
  constructor
  · intro hnil
    rw [bst_max, bst_min, hnil]
    exact ⟨rfl, rfl⟩
  · intro l v r hroot
    rw [hroot] at h
    constructor
    · refine ⟨maxKeyGo v r, ?_, by rw [hroot]; exact (maxKeyGo_spec r v l h).1,
        by rw [hroot]; exact (maxKeyGo_spec r v l h).2⟩
      unfold bst_max
      rw [hroot]
    · refine ⟨minKeyGo v l, ?_, by rw [hroot]; exact (minKeyGo_spec l v r h).1,
        by rw [hroot]; exact (minKeyGo_spec l v r h).2⟩
      unfold bst_min
      rw [hroot]

/-- Witness for C9 (amended): the theorem applied to the empty tree, with
the order hypothesis discharged by computation. -/
theorem c9_minmax_behaviour_witness :
    bst_max ⟨Tree.nil, 0⟩ = .thrown "Cannot find maximum value in empty tree." ∧
    bst_min ⟨Tree.nil, 0⟩ = .thrown "Cannot find maximum value in empty tree." :=
  (c9_minmax_behaviour ⟨.nil, 0⟩ (by decide)).1 rfl

/-- Insertion of a key into a sorted key list at its order position
(spec-side description of where the new leaf's key appears in order). -/
def insertSorted (x : Int) : List Int → List Int
  | [] => [x]
  | y :: ys => if x < y then x :: y :: ys else y :: insertSorted x ys

/-- Unfolding equation of `insertSorted` on a non-empty list. -/
theorem insertSorted_cons (x y : Int) (ys : List Int) :
    insertSorted x (y :: ys) =
      if x < y then x :: y :: ys else y :: insertSorted x ys := rfl

/-- `insertSorted` adds exactly one element. -/
theorem insertSorted_length (x : Int) (l : List Int) :
    (insertSorted x l).length = l.length + 1 := by
  induction l with
  | nil => rfl
  | cons y ys ih =>
    rw [insertSorted_cons]
    split
    · simp
    · simp [ih]

/-- When `x` is below the pivot, `insertSorted` lands in the front part. -/
theorem insertSorted_append_left (x v : Int) (l1 l2 : List Int) (h : x < v) :
    insertSorted x (l1 ++ v :: l2) = insertSorted x l1 ++ v :: l2 := by
  induction l1 with
  | nil => simp [insertSorted_cons, insertSorted, h]
  | cons y ys ih =>
    show insertSorted x (y :: (ys ++ v :: l2)) = insertSorted x (y :: ys) ++ v :: l2
    rw [insertSorted_cons, insertSorted_cons]
    split
    · simp
    · simp only [List.cons_append, List.cons.injEq, true_and]
      exact ih

/-- When `x` is above the whole front part and the pivot, `insertSorted`
lands in the back part. -/
theorem insertSorted_append_right (x v : Int) (l1 l2 : List Int)
    (h1 : ∀ y ∈ l1, ¬ x < y) (h2 : ¬ x < v) :
    insertSorted x (l1 ++ v :: l2) = l1 ++ v :: insertSorted x l2 := by
  induction l1 with
  | nil => simp [insertSorted_cons, h2]
  | cons y ys ih =>
    have hy : ¬ x < y := h1 y (List.mem_cons_self y ys)
    show insertSorted x (y :: (ys ++ v :: l2)) = (y :: ys) ++ v :: insertSorted x l2
    rw [insertSorted_cons, if_neg hy]
    simp only [List.cons_append, List.cons.injEq, true_and]
    exact ih (fun z hz => h1 z (List.mem_cons_of_mem y hz))

/-- The descent of `push` meets an equal key exactly when the key is
already in the (ordered) tree. -/
theorem insertGo_none_iff (t : Tree) (x : Int) (h : Ordered t) :
    insertGo t x = none ↔ x ∈ inorder t := by
  induction t with
  | nil => simp [insertGo, inorder]
  | node l v r ihl ihr =>
    rcases ordered_node_iff.1 h with ⟨hl, hr, hkl, hkr⟩
    by_cases hvx : v = x
    · subst hvx
      have he : insertGo (.node l v r) v = none := by
        unfold insertGo
        rw [if_pos rfl]
      exact iff_of_true he (mem_inorder_node.2 (Or.inr (Or.inl rfl)))
    · by_cases hlt : x < v
      · rw [show insertGo (.node l v r) x = (insertGo l x).map (fun l2 => .node l2 v r) by
          simp [insertGo, hvx, hlt]]
        rw [Option.map_eq_none', ihl hl, mem_inorder_node]
        constructor
        · exact Or.inl
        · rintro (hm | hm | hm)
          · exact hm
          · exact absurd hm.symm hvx
          · exact absurd hlt (not_lt_of_gt (hkr x hm))
      · rw [show insertGo (.node l v r) x = (insertGo r x).map (fun r2 => .node l v r2) by
          simp [insertGo, hvx, hlt]]
        rw [Option.map_eq_none', ihr hr, mem_inorder_node]
        constructor
        · exact fun hm => Or.inr (Or.inr hm)
        · rintro (hm | hm | hm)
          · exact absurd (hkl x hm) (by omega)
          · exact absurd hm.symm hvx
          · exact hm

/-- A successful descent of `push` attaches the key at its order position
in the in-order sequence. -/
theorem insertGo_some_inorder (t : Tree) (x : Int) (h : Ordered t)
    (t2 : Tree) (hs : insertGo t x = some t2) :
    inorder t2 = insertSorted x (inorder t) := by
  induction t generalizing t2 with
  | nil =>
    simp only [insertGo, Option.some.injEq] at hs
    subst hs
    rfl
  | node l v r ihl ihr =>
    rcases ordered_node_iff.1 h with ⟨hl, hr, hkl, hkr⟩
    by_cases hvx : v = x
    · subst hvx
      simp [insertGo] at hs
    · by_cases hlt : x < v
      · rw [show insertGo (.node l v r) x = (insertGo l x).map (fun l2 => .node l2 v r) by
          simp [insertGo, hvx, hlt]] at hs
        rcases Option.map_eq_some'.1 hs with ⟨l2, hl2, rfl⟩
        show inorder l2 ++ v :: inorder r = _
        rw [ihl hl l2 hl2, inorder, insertSorted_append_left x v _ _ hlt]
      · rw [show insertGo (.node l v r) x = (insertGo r x).map (fun r2 => .node l v r2) by
          simp [insertGo, hvx, hlt]] at hs
        rcases Option.map_eq_some'.1 hs with ⟨r2, hr2, rfl⟩
        show inorder l ++ v :: inorder r2 = _
        rw [ihr hr r2 hr2, inorder,
          insertSorted_append_right x v _ _ (fun y hy => by have := hkl y hy; omega) hlt]

/-- C5: on an ordered tree, `push` returns false exactly when the key is
already present; on success it adds exactly one node, placed at the order
position the comparison descent determines (the in-order sequence becomes
the sorted insertion of the key), and increments `m_size` by one; pushing
into the empty tree succeeds with the new node as root. -/
theorem c5_push_correct (t : BST) (x : Int) (h : Ordered t.m_root) :
    ((bst_push t x).1 = false ↔ x ∈ inorder t.m_root) ∧
    ((bst_push t x).1 = true →
      inorder (bst_push t x).2.m_root = insertSorted x (inorder t.m_root) ∧
      countNodes (bst_push t x).2.m_root = countNodes t.m_root + 1 ∧
      (bst_push t x).2.m_size = t.m_size + 1) ∧
    (t.m_root = .nil → bst_push t x = (true, ⟨.node .nil x .nil, t.m_size + 1⟩)) := by
  refine ⟨?_, ?_, ?_⟩
  · rw [← insertGo_none_iff t.m_root x h]
    unfold bst_push
    cases hi : insertGo t.m_root x <;> simp [hi]
  · intro hsucc
    unfold bst_push at hsucc ⊢
    cases hi : insertGo t.m_root x with
    | none => rw [hi] at hsucc; simp at hsucc
    | some r =>
      have hio : inorder r = insertSorted x (inorder t.m_root) :=
        insertGo_some_inorder t.m_root x h r hi
      refine ⟨hio, ?_, rfl⟩
      have hcount : ∀ s : Tree, countNodes s = (inorder s).length := by
        intro s
        induction s with
        | nil => rfl
        | node l v r ihl ihr => simp [countNodes, inorder, ihl, ihr]; omega
      rw [hcount, hcount, hio, insertSorted_length]
  · intro hnil
    unfold bst_push
    rw [hnil]
    rfl

/-- Witness for C5: pushing 3 into the empty tree. -/
theorem c5_push_correct_witness :
    bst_push ⟨Tree.nil, 0⟩ 3 = (true, ⟨.node .nil 3 .nil, 1⟩) :=
  (c5_push_correct ⟨.nil, 0⟩ 3 (by decide)).2.2 rfl

/-- `removeGo` descends left below the node's key. -/
theorem removeGo_eq_lt (l : Tree) (v : Int) (r : Tree) (x : Int) (h : x < v) :
    removeGo (.node l v r) x = ((removeGo l x).1, .node (removeGo l x).2 v r) := by
  cases l <;> cases r <;> simp [removeGo, h]

/-- `removeGo` descends right above the node's key. -/
theorem removeGo_eq_gt (l : Tree) (v : Int) (r : Tree) (x : Int)
    (h1 : ¬ x < v) (h2 : v < x) :
    removeGo (.node l v r) x = ((removeGo r x).1, .node l v (removeGo r x).2) := by
  cases l <;> cases r <;> simp [removeGo, h1, h2]

/-- `removeGo` at a located leaf: reports success, detaches nothing. -/
theorem removeGo_eq_leaf (v : Int) :
    removeGo (.node .nil v .nil) v = (true, .node .nil v .nil) := by
  simp [removeGo]

/-- `removeGo` at a located node with only a left child: reports success,
splices nothing (the pointer parameter is a by-value copy). -/
theorem removeGo_eq_oneL (ll : Tree) (lv : Int) (lr : Tree) (v : Int) :
    removeGo (.node (.node ll lv lr) v .nil) v =
      (true, .node (.node ll lv lr) v .nil) := by
  simp [removeGo]

/-- `removeGo` at a located node with only a right child: reports
success, splices nothing. -/
theorem removeGo_eq_oneR (v : Int) (rl : Tree) (rv : Int) (rr : Tree) :
    removeGo (.node .nil v (.node rl rv rr)) v =
      (true, .node .nil v (.node rl rv rr)) := by
  simp [removeGo]

/-- `removeGo` at a located node with two children: overwrites the node's
key with the in-order predecessor's key and recurses into the left
subtree. -/
theorem removeGo_eq_two (ll : Tree) (lv : Int) (lr : Tree) (v : Int)
    (rl : Tree) (rv : Int) (rr : Tree) :
    removeGo (.node (.node ll lv lr) v (.node rl rv rr)) v =
      ((removeGo (.node ll lv lr) (maxKeyGo lv lr)).1,
       .node (removeGo (.node ll lv lr) (maxKeyGo lv lr)).2 (maxKeyGo lv lr)
         (.node rl rv rr)) := by
  conv_lhs => rw [removeGo]
  simp

/-- On an ordered node, the recursive removal of the in-order
predecessor's key (the rightmost key) reports success. -/
theorem removeGo_max (lr : Tree) : ∀ (lv : Int) (ll : Tree),
    Ordered (.node ll lv lr) →
    (removeGo (.node ll lv lr) (maxKeyGo lv lr)).1 = true := by
  induction lr with
  | nil =>
    intro lv ll h
    rw [show maxKeyGo lv Tree.nil = lv from rfl]
    cases ll with
    | nil => rw [removeGo_eq_leaf]
    | node a b c => rw [removeGo_eq_oneL]
  | node rl rv rr ihrl ihrr =>
    intro lv ll h
    rcases ordered_node_iff.1 h with ⟨-, hr, -, hkr⟩
    have hmem := (maxKeyGo_spec rr rv rl hr).1
    have hvlt : lv < maxKeyGo rv rr := hkr _ hmem
    rw [show maxKeyGo lv (.node rl rv rr) = maxKeyGo rv rr from rfl,
      removeGo_eq_gt _ _ _ _ (by omega) hvlt]
    exact ihrr rv rl hr

/-- On an ordered tree, whenever `find` locates the key the removal
helper reports success. -/
theorem removeGo_found (t : Tree) (x : Int) (h : Ordered t)
    (hf : findNode t x ≠ none) : (removeGo t x).1 = true := by
  induction t with
  | nil => exact absurd rfl hf
  | node l v r ihl ihr =>
    rcases ordered_node_iff.1 h with ⟨hl, hr, hkl, hkr⟩
    by_cases hvx : v = x
    · subst hvx
      cases l with
      | nil =>
        cases r with
        | nil => rw [removeGo_eq_leaf]
        | node rl rv rr => rw [removeGo_eq_oneR]
      | node ll lv lr =>
        cases r with
        | nil => rw [removeGo_eq_oneL]
        | node rl rv rr =>
          rw [removeGo_eq_two]
          exact removeGo_max lr lv ll hl
    · by_cases hlt : x < v
      · have hfl : findNode l x ≠ none := by
          rw [show findNode (.node l v r) x = findNode l x from by
            simp [findNode, hvx, hlt]] at hf
          exact hf
        rw [removeGo_eq_lt _ _ _ _ hlt]
        exact ihl hl hfl
      · have hvlt : v < x := by omega
        have hfr : findNode r x ≠ none := by
          rw [show findNode (.node l v r) x = findNode r x from by
            simp [findNode, hvx, hlt]] at hf
          exact hf
        rw [removeGo_eq_gt _ _ _ _ hlt hvlt]
        exact ihr hr hfr

/-- C8: on an ordered tree, a failed mutation is the identity on the
whole tree object: a duplicate `push` returns false with root and size
untouched, and a `pop` of an absent key returns false with root and size
untouched. -/
theorem c8_failed_mutation_identity (t : BST) (x : Int) (h : Ordered t.m_root) :
    ((bst_push t x).1 = false → (bst_push t x).2 = t) ∧
    ((bst_pop t x).1 = false → (bst_pop t x).2 = t) := by
  constructor
  · intro hf
    unfold bst_push at hf ⊢
    cases hi : insertGo t.m_root x with
    | none => rfl
    | some r =>
      rw [hi] at hf
      exact Bool.noConfusion (show (true : Bool) = false from hf)
  · intro hf
    unfold bst_pop at hf ⊢
    cases hfind : findNode t.m_root x with
    | none => rfl
    | some s =>
      exfalso
      rw [hfind] at hf
      have htrue := removeGo_found t.m_root x h (by
        rw [hfind]
        exact fun hc => Option.noConfusion hc)
      have hfalse : (removeGo t.m_root x).1 = false := hf
      rw [htrue] at hfalse
      exact Bool.noConfusion hfalse

/-- Witness for C8: a duplicate push of 5 and a pop of the absent key 7
on the singleton tree holding 5 both leave the tree object unchanged. -/
theorem c8_failed_mutation_identity_witness :
    (bst_push ⟨Tree.node .nil 5 .nil, 1⟩ 5).2 = ⟨Tree.node .nil 5 .nil, 1⟩ ∧
    (bst_pop ⟨Tree.node .nil 5 .nil, 1⟩ 7).2 = ⟨Tree.node .nil 5 .nil, 1⟩ :=
  ⟨(c8_failed_mutation_identity ⟨.node .nil 5 .nil, 1⟩ 5 (by decide)).1 (by decide),
   (c8_failed_mutation_identity ⟨.node .nil 5 .nil, 1⟩ 7 (by decide)).2 (by decide)⟩

/-- All subtrees (nodes) of a tree, the node itself first. -/
def allSubtrees : Tree → List Tree
  | .nil => []
  | .node l v r => .node l v r :: (allSubtrees l ++ allSubtrees r)

/-- The key at a root pointer, absent for null. -/
def rootKey : Tree → Option Int
  | .nil => none
  | .node _ v _ => some v

/-- Strict-ancestor test: the subtree contains the key but does not hold
it at its own root. -/
def ancPred (x : Int) (s : Tree) : Bool :=
  decide (x ∈ inorder s) && !(rootKey s == some x)

/-- The strict ancestors of the node holding a key, root first:
independent characterization (by key containment over all subtrees) of
the nodes strictly above the key's location. -/
def specAncestors (t : Tree) (x : Int) : List Tree :=
  (allSubtrees t).filter (ancPred x)

/-- Keys of a subtree are keys of the whole tree. -/
theorem mem_allSubtrees_inorder (t : Tree) : ∀ s ∈ allSubtrees t,
    ∀ y ∈ inorder s, y ∈ inorder t := by
  induction t with
  | nil => intro s hs; simp [allSubtrees] at hs
  | node l v r ihl ihr =>
    intro s hs y hy
    rw [show allSubtrees (.node l v r)
        = .node l v r :: (allSubtrees l ++ allSubtrees r) from rfl] at hs
    rcases List.mem_cons.1 hs with hs | hs
    · exact hs ▸ hy
    · rcases List.mem_append.1 hs with hs | hs
      · exact mem_inorder_node.2 (Or.inl (ihl s hs y hy))
      · exact mem_inorder_node.2 (Or.inr (Or.inr (ihr s hs y hy)))

/-- A filter by a predicate false on all elements is empty. -/
theorem filter_none_of_false (p : Tree → Bool) (l : List Tree)
    (h : ∀ a ∈ l, p a = false) : l.filter p = [] := by
  induction l with
  | nil => rfl
  | cons a as ih =>
    rw [List.filter_cons, h a (List.mem_cons_self a as)]
    exact ih (fun b hb => h b (List.mem_cons_of_mem a hb))

/-- On an ordered tree, the stack `pathTo` collects is exactly the strict
ancestors of the node holding the key, root first. -/
theorem pathNodes_eq_specAncestors (t : Tree) (x : Int) (h : Ordered t)
    (hm : x ∈ inorder t) : pathNodes t x = some (specAncestors t x) := by
  induction t with
  | nil => simp [inorder] at hm
  | node l v r ihl ihr =>
    rcases ordered_node_iff.1 h with ⟨hl, hr, hkl, hkr⟩
    by_cases hvx : v = x
    · subst hvx
      have hp : pathNodes (.node l v r) v = some [] := by
        unfold pathNodes
        rw [if_pos rfl]
      have hhead : ancPred v (.node l v r) = false := by
        simp [ancPred, rootKey]
      have hresl : ∀ s ∈ allSubtrees l, ancPred v s = false := by
        intro s hs
        have hno : v ∉ inorder s := fun hin =>
          absurd (hkl v (mem_allSubtrees_inorder l s hs v hin)) (lt_irrefl v)
        simp [ancPred, hno]
      have hresr : ∀ s ∈ allSubtrees r, ancPred v s = false := by
        intro s hs
        have hno : v ∉ inorder s := fun hin =>
          absurd (hkr v (mem_allSubtrees_inorder r s hs v hin)) (lt_irrefl v)
        simp [ancPred, hno]
      rw [hp]
      unfold specAncestors
      rw [show allSubtrees (.node l v r)
          = .node l v r :: (allSubtrees l ++ allSubtrees r) from rfl,
        List.filter_cons, hhead, List.filter_append,
        filter_none_of_false _ _ hresl, filter_none_of_false _ _ hresr]
      simp
    · by_cases hlt : x < v
      · have hxl : x ∈ inorder l := by
          rcases mem_inorder_node.1 hm with h1 | h1 | h1
          · exact h1
          · exact absurd h1.symm hvx
          · exact absurd (hkr x h1) (by omega)
        have hp : pathNodes (.node l v r) x
            = (pathNodes l x).map (Tree.node l v r :: ·) := by
          simp only [pathNodes]
          rw [if_neg hvx, if_pos hlt]
        have hhead : ancPred x (.node l v r) = true := by
          simp [ancPred, rootKey, hm, hvx]
        have hresr : ∀ s ∈ allSubtrees r, ancPred x s = false := by
          intro s hs
          have hno : x ∉ inorder s := fun hin =>
            absurd (hkr x (mem_allSubtrees_inorder r s hs x hin)) (by omega)
          simp [ancPred, hno]
        have hspec : specAncestors (.node l v r) x
            = .node l v r :: specAncestors l x := by
          unfold specAncestors
          rw [show allSubtrees (.node l v r)
              = .node l v r :: (allSubtrees l ++ allSubtrees r) from rfl,
            List.filter_cons, hhead, List.filter_append,
            filter_none_of_false _ _ hresr, List.append_nil]
          simp
        rw [hp, ihl hl hxl, Option.map_some', hspec]
      · have hvltx : v < x := by omega
        have hxr : x ∈ inorder r := by
          rcases mem_inorder_node.1 hm with h1 | h1 | h1
          · exact absurd (hkl x h1) (by omega)
          · exact absurd h1.symm hvx
          · exact h1
        have hp : pathNodes (.node l v r) x
            = (pathNodes r x).map (Tree.node l v r :: ·) := by
          simp only [pathNodes]
          rw [if_neg hvx, if_neg hlt]
        have hhead : ancPred x (.node l v r) = true := by
          simp [ancPred, rootKey, hm, hvx]
        have hresl : ∀ s ∈ allSubtrees l, ancPred x s = false := by
          intro s hs
          have hno : x ∉ inorder s := fun hin =>
            absurd (hkl x (mem_allSubtrees_inorder l s hs x hin)) (by omega)
          simp [ancPred, hno]
        have hspec : specAncestors (.node l v r) x
            = .node l v r :: specAncestors r x := by
          unfold specAncestors
          rw [show allSubtrees (.node l v r)
              = .node l v r :: (allSubtrees l ++ allSubtrees r) from rfl,
            List.filter_cons, hhead, List.filter_append,
            filter_none_of_false _ _ hresl, List.nil_append]
          simp
        rw [hp, ihr hr hxr, Option.map_some', hspec]

/-- C4 (amended): `pop` captures its rebalance stack before the deletion,
but that stack is `pathTo(key)` — on an ordered tree exactly the strict
ancestors of the node HOLDING THE REQUESTED KEY (deepest first, so the
walk starts at that node's parent and proceeds up to the root), not the
ancestors of the physical removal point, which in the two-children case
lies strictly deeper (at the in-order predecessor's old slot). -/
theorem c4_pop_walk_is_logical_path (t : Tree) (x : Int) (h : Ordered t)
    (hm : x ∈ inorder t) :
    pathToList t x = some ((specAncestors t x).reverse) := by
  unfold pathToList
  rw [pathNodes_eq_specAncestors t x h hm, Option.map_some']

/-- Witness for C4 (amended): the walk stack for popping key 1 from the
ordered tree with keys 1, 2, 3. -/
theorem c4_pop_walk_is_logical_path_witness :
    pathToList t123 1 = some ((specAncestors t123 1).reverse) :=
  c4_pop_walk_is_logical_path t123 1 (by decide) (by decide)

end DslGraph
